import Mathlib

/-!
Verification development for the `reudp` repository (reliable datagram
transport over UDP).  The definitions below are shallow embeddings of the
JavaScript source files:

  * `src/libs/utils.js`    — sequence codec (`zipSequences`, `unzipSequences`),
                             `xor` obfuscation;
  * `src/libs/checksum.js` — 16-bit checksum (`sum`, `verify`, `generate`);
  * `src/libs/sessions.js` — `Session` constructor, `SendingSession.getIdBy`;
  * `src/index.js`         — constants, pacing interval, `_getHolesFrom`,
                             `_generatePacketsBy` / `_trySend`, `send`.

Buffers are `List ℕ` of byte values; JavaScript numbers are `ℕ`, `ℤ` or `ℚ`
with 32-bit wrapping written explicitly where the source relies on it.
-/

namespace ReUDP

/-! ## JavaScript array helpers from src/libs/utils.js

`unique = ary => [...new Set(ary).values()]` keeps the first occurrence of
every element, in encounter order.  `asc = (a, b) => Math.sign(a - b)` is the
ascending numeric comparator; `unique(ary).sort(asc)` therefore produces the
strictly ascending enumeration of the distinct elements of `ary`.  Any
comparison sort of a duplicate-free list yields that same list, so we model
`.sort(asc)` with insertion sort. -/

/-- Model of the JS `unique` helper with an explicit seen-set accumulator. -/
def jsUniqueAux (seen : List ℕ) : List ℕ → List ℕ
  | [] => []
  | x :: xs => if x ∈ seen then jsUniqueAux seen xs else x :: jsUniqueAux (x :: seen) xs

/-- Model of `unique = ary => [...new Set(ary).values()]`: first-occurrence
deduplication in encounter order. -/
def jsUnique (l : List ℕ) : List ℕ := jsUniqueAux [] l

/-- Model of `unique(ary).sort(asc)` (the preprocessing both codec functions
perform): deduplicate, then sort ascending. -/
def sortedDedup (l : List ℕ) : List ℕ := List.insertionSort (· ≤ ·) (jsUnique l)

/-! ## Sequence codec: `zipSequences` (src/libs/utils.js lines 17-57) -/

/-- State-passing translation of the `zipSequences` scan loop.  `prev` and
`start` are the mutable loop variables of the source (`undefined` = `none`);
the pushes into `zippedAry` become list construction. -/
def zipLoop : List ℕ → Option ℕ → Option ℕ → List ℕ
  | [], start, prev =>
    match prev with
    | none => []
    | some p =>
      match start with
      | some s => [s ||| 0x8000, p ||| 0x8000]
      | none => [p]
  | curr :: rest, start, prev =>
    match prev with
    | none => zipLoop rest start (some curr)
    | some p =>
      if curr = p then zipLoop rest start prev
      else if curr = p + 1 then zipLoop rest (some (start.getD p)) (some curr)
      else
        match start with
        | some s => (s ||| 0x8000) :: (p ||| 0x8000) :: zipLoop rest none (some curr)
        | none => p :: zipLoop rest none (some curr)

/-- Model of `utils.zipSequences`.  The source throws when any element of the
sorted array is `>= 0x8000` (the negative case cannot arise for `ℕ`); a
throw is `none`. -/
def zipSequences (l : List ℕ) : Option (List ℕ) :=
  if ∀ x ∈ sortedDedup l, x < 0x8000 then some (zipLoop (sortedDedup l) none none)
  else none

/-! ## Sequence codec: `unzipSequences` (src/libs/utils.js lines 64-92) -/

/-- Model of the inclusive loop `for (let j = start; j <= end; j++)`; empty
when `e < s`. -/
def jsRangeIncl (s e : ℕ) : List ℕ := if s ≤ e then List.range' s (e - s + 1) else []

/-- Translation of the `unzipSequences` scan loop including the lone-marker
decay: a marked value whose successor is unmarked (or absent) emits its
masked form and the successor is re-processed (`i -= 1` in the source). -/
def unzipLoop : List ℕ → List ℕ
  | [] => []
  | [curr] => if 0x7FFF < curr then [curr &&& 0x7FFF] else [curr]
  | curr :: next :: rest2 =>
    if 0x7FFF < curr then
      if 0x7FFF < next then
        jsRangeIncl (curr &&& 0x7FFF) (next &&& 0x7FFF) ++ unzipLoop rest2
      else (curr &&& 0x7FFF) :: unzipLoop (next :: rest2)
    else curr :: unzipLoop (next :: rest2)

/-- Model of `utils.unzipSequences` (the variant used by src/index.js): sort
and dedupe, run the scan loop, dedupe the result. -/
def unzipSequences (l : List ℕ) : List ℕ := jsUnique (unzipLoop (sortedDedup l))

/-! ## Checksum layer (src/libs/checksum.js)

A buffer is a `List ℕ` of bytes.  `readUInt16BE` over consecutive pairs with
an odd trailing byte contributing `byte << 8` is the word list below. -/

/-- Big-endian 16-bit words of a buffer: pairs `a*256 + b`; an odd trailing
byte contributes `a*256` (`readUInt8(len-1) << 8 | 0x00` in the source). -/
def words16 : List ℕ → List ℕ
  | a :: b :: rest => (a * 256 + b) :: words16 rest
  | [a] => [a * 256]
  | [] => []

/-- One pass of the inner `do ... while (sum > 0xFFFF)` reduction loop of
`sum`.  The JS `sum >>> 16` first coerces to an unsigned 32-bit integer, so
the shifted value is `(s % 2^32) / 2^16`; that value is at most `0xFFFF`, so
the do-while body in fact runs exactly once, discarding the high chunk. -/
def innerFold (checksum s : ℕ) : ℕ :=
  let checksum' := checksum + (s &&& 0xFFFF)
  let s' := s % 2 ^ 32 / 2 ^ 16
  if 0xFFFF < s' then innerFold checksum' s' else checksum'
termination_by s
decreasing_by
  have : s % 2 ^ 32 / 2 ^ 16 < 2 ^ 16 :=
    Nat.div_lt_of_lt_mul (Nat.lt_of_lt_of_le (Nat.mod_lt _ (by norm_num)) (by norm_num))
  omega

/-- The outer `while (checksum > 0xFFFF)` loop of `sum`. -/
def outerFold (checksum : ℕ) : ℕ :=
  if 0xFFFF < checksum then outerFold (innerFold 0 checksum) else checksum
termination_by checksum
decreasing_by
  have h1 : checksum &&& 0xFFFF < 2 ^ 16 := by
    have : checksum &&& 0xFFFF ≤ 0xFFFF := Nat.and_le_right
    omega
  have h2 : ¬ (0xFFFF < checksum % 2 ^ 32 / 2 ^ 16) := by
    have : checksum % 2 ^ 32 / 2 ^ 16 < 2 ^ 16 :=
      Nat.div_lt_of_lt_mul (Nat.lt_of_lt_of_le (Nat.mod_lt _ (by norm_num)) (by norm_num))
    omega
  rw [innerFold, if_neg h2]
  omega

/-- Model of `sum` from src/libs/checksum.js: accumulate the big-endian words
then run the reduction loops. -/
def sum (buffer : List ℕ) : ℕ := outerFold ((words16 buffer).foldl (· + ·) 0)

/-- Model of `checksum.verify`. -/
def verify (buffer : List ℕ) : Bool := sum buffer = 0xFFFF

/-- Model of `checksum.generate`: prepend `~sum(buffer) & 0xFFFF` big-endian.
For `s ≤ 0xFFFF` the JS expression `~s & 0xFFFF` equals `0xFFFF - s`; we keep
the two's-complement form `(2^32 - 1 - s) &&& 0xFFFF` from the source. -/
def generate (buffer : List ℕ) : List ℕ :=
  let checksum := (2 ^ 32 - 1 - sum buffer) &&& 0xFFFF
  checksum / 2 ^ 8 :: (checksum &&& 0xFF) :: buffer

/-! ## XOR obfuscation (src/libs/utils.js lines 100-125)

`readInt32BE`/`writeInt32BE` move 32-bit patterns; XOR acts on the bit
pattern, so we model the words by their unsigned value
`a*2^24 + b*2^16 + c*2^8 + d`.  `pw >>> 24` coerces the key word to its
unsigned pattern and yields its top byte. -/

/-- Unsigned value of the 32-bit big-endian word with bytes `a b c d`. -/
def word32 (a b c d : ℕ) : ℕ := a * 2 ^ 24 + b * 2 ^ 16 + c * 2 ^ 8 + d

/-- Body of the xor loops: bytes after the 4-byte key.  Full 4-byte words
(`i = 1 .. count-1` in the source) are replaced by the bytes of
`word ^^^ pw`; the trailing `len % 4` bytes are each XORed with
`tb = (pw >>> 24) & 0xFF`. -/
def xorBody (pw tb : ℕ) : List ℕ → List ℕ
  | a :: b :: c :: d :: rest =>
    let w := word32 a b c d ^^^ pw
    w / 2 ^ 24 % 256 :: w / 2 ^ 16 % 256 :: w / 2 ^ 8 % 256 :: w % 256 :: xorBody pw tb rest
  | rest => rest.map (· ^^^ tb)

/-- Model of `utils.xor`: buffers of length at most 4 are returned unchanged
(as a copy); otherwise the first word is the key and the remainder is
transformed by `xorBody`. -/
def xor (buffer : List ℕ) : List ℕ :=
  match buffer with
  | a :: b :: c :: d :: e :: rest =>
    let pw := word32 a b c d
    a :: b :: c :: d :: xorBody pw (pw / 2 ^ 24 &&& 0xFF) (e :: rest)
  | short => short

/-! ## Heap-level view of `utils.xor` for the frame property

`xor` begins with `const newBuffer = Buffer.from(buffer)` — an allocation of
a fresh buffer holding a copy of the bytes — and every subsequent
`write...` in the source targets `newBuffer` only.  We model the buffer
store as a list of buffers addressed by index: `Buffer.from` appends a copy
at a fresh index, and the in-place writes become an update of that cell
alone. -/

/-- A store of allocated buffers; a buffer reference is an index. -/
abbrev Heap : Type := List (List ℕ)

/-- Model of `utils.xor` at the store level: allocate the `Buffer.from` copy
at a fresh index, mutate only that cell, return the heap and the reference to
the new buffer. -/
def xorHeap (h : Heap) (r : ℕ) : Heap × ℕ :=
  let copied : List (List ℕ) := h ++ [(h.getD r []).map id]
  let fresh := List.length (α := List ℕ) h
  (copied.set fresh (xor (copied.getD fresh [])), fresh)

/-! ## Session tables (src/libs/sessions.js) -/

/-- Options accepted by the `Session` constructor as ReUDP passes them
(src/index.js lines 105-120): the id-wrap bound and the auto-clear policy. -/
structure SessionOptions where
  maxCounter : Option ℕ
  autoClearTtl : Option ℕ
  autoClearInterval : Option ℕ

/-- The fields of a fresh `Session` that `getIdBy` can observe.  The
constructor (src/libs/sessions.js lines 260-277) installs the auto-clear
timer and the destroy hook and creates the empty `_super` map; it never
reads `options.maxCounter`, so `_maxCounter` stays `undefined` (`none`). -/
structure SessionState where
  maxCounterField : Option ℕ
  ids : List (String × ℕ)

/-- Model of `new Session(options)` restricted to the observable fields. -/
def Session.init (_opts : SessionOptions) : SessionState :=
  { maxCounterField := none, ids := [] }

/-- JavaScript `a >= b` where `b` may be `undefined`: any comparison with
`undefined` is `false`. -/
def jsGe (a : ℕ) (b : Option ℕ) : Bool :=
  match b with
  | none => false
  | some m => m ≤ a

/-- Model of `SendingSession.getIdBy` for one peer key: `prevId` is the
stored id (or `-1`), the candidate is `prevId + 1`, and it is reset to `0`
when `id >= this._maxCounter`.  Returns the allocated id. -/
def getIdBy (prev : Option ℕ) (maxCounterField : Option ℕ) : ℕ :=
  let id := match prev with
    | none => 0
    | some p => p + 1
  if jsGe id maxCounterField then 0 else id

/-- The options ReUDP's constructor passes to `new SendingSession`
(src/index.js lines 105-120). -/
def reudpSendingSessionOptions : SessionOptions :=
  { maxCounter := some (2 ^ 32), autoClearTtl := some (1000 * 60 * 60),
    autoClearInterval := some (1000 * 30) }

/-! ## Endpoint constants (src/index.js lines 11-15) -/

def MAX_COUNTER : ℕ := 2 ^ 32
def MAX_PACKET_SIZE : ℕ := 1090 - 14
def MAX_BUFFER_SIZE : ℕ := 2 ^ 15 * MAX_PACKET_SIZE
def PARALLEL_COUNT : ℕ := 92
def LATENCY : ℕ := 35

/-! ## Pacing interval (src/index.js lines 154-161)

The interval is computed with JavaScript floating-point division, which can
produce `Infinity` or `NaN`.  We model the value as an exact rational
extended with the three special values; binary64 rounding preserves the
sign, zero, infinity and NaN classification of these products, differences
and quotients of moderate integers, which is all that the clamp
`this._interval < 0 || isNaN(this._interval)` inspects. -/

/-- A JavaScript number: finite (exact rational), an infinity, or NaN. -/
inductive JSNum where
  | fin : ℚ → JSNum
  | posInf : JSNum
  | negInf : JSNum
  | nan : JSNum
deriving DecidableEq

/-- Division of finite JS numbers: division by zero yields a signed infinity
(or NaN for `0 / 0`). -/
def jsDivFin (a b : ℚ) : JSNum :=
  if b = 0 then (if a = 0 then JSNum.nan else if 0 < a then JSNum.posInf else JSNum.negInf)
  else JSNum.fin (a / b)

/-- JavaScript `x < 0` on the modelled numbers. -/
def jsLtZero : JSNum → Bool
  | JSNum.fin q => q < 0
  | JSNum.negInf => true
  | JSNum.posInf => false
  | JSNum.nan => false

/-- JavaScript `isNaN`: true only for NaN; both infinities are numbers. -/
def jsIsNaN : JSNum → Bool
  | JSNum.nan => true
  | _ => false

/-- The raw per-burst interval `(1000 * parallelSize) / (bandWidth -
parallelSize)` of src/index.js line 157, for byte-per-second bandwidth `bw`
and `parallelSize = MAX_PACKET_SIZE * parallelCount` in bytes. -/
def rawInterval (bw ps : ℚ) : JSNum := jsDivFin (1000 * ps) (bw - ps)

/-- Lines 157-160: the computed interval, replaced by 1000 when it is
negative or NaN. -/
def pacingInterval (bw ps : ℚ) : JSNum :=
  let r := rawInterval bw ps
  if jsLtZero r || jsIsNaN r then JSNum.fin 1000 else r

/-- Bandwidth in bytes per second from the constructor option
(`(options.bandWidth || 4) * 1024 * 1024 / 8`); `0` is falsy. -/
def bandWidthBytes (bandWidthOpt : ℚ) : ℚ :=
  (if bandWidthOpt = 0 then 4 else bandWidthOpt) * 1024 * 1024 / 8

/-- The endpoint's pacing interval as the constructor computes it, given the
`bandWidth` option and the parallel count. -/
def reudpInterval (bandWidthOpt : ℚ) (parallelCount : ℕ) : JSNum :=
  pacingInterval (bandWidthBytes bandWidthOpt) (MAX_PACKET_SIZE * parallelCount)

/-! ## Hole scan (src/index.js lines 211-222)

The sparse reassembly array is modelled by its occupancy predicate
`frag : ℕ → Bool` (`Buffer.isBuffer(buffers[i])`); indexing past the stored
fragments yields `undefined`, i.e. `false`, which the total function
represents directly. -/

/-- The scan loop `while (i < total && ary.length < singleTotal)`; `accLen`
mirrors `ary.length` for the part of `ary` already emitted. -/
def holesLoop (frag : ℕ → Bool) (total singleTotal : ℕ) (i accLen : ℕ) : List ℕ :=
  if i < total ∧ accLen < singleTotal then
    if frag i then holesLoop frag total singleTotal (i + 1) accLen
    else i :: holesLoop frag total singleTotal (i + 1) (accLen + 1)
  else []
termination_by total - i
decreasing_by all_goals omega

/-- Model of `_getHolesFrom`: returns the collected holes and the updated
`_lastIndex` (`ary.length > 0 ? ary[0] : total`). -/
def getHolesFrom (frag : ℕ → Bool) (singleTotal total lastIndex : ℕ) : List ℕ × ℕ :=
  let ary := holesLoop frag total singleTotal lastIndex 0
  (ary, match ary with | [] => total | h :: _ => h)

/-! ## Sender fragment generator (src/index.js lines 712-737) and enqueue
path (lines 821-856) -/

/-- A PSH packet as `_packData` assembles it before serialisation: header id,
sequence number, parallel count, total count and the payload slice. -/
structure PshPacket where
  id : ℕ
  seq : ℕ
  parallelCount : ℕ
  totalCount : ℕ
  data : List ℕ
deriving DecidableEq

/-- Model of `Math.ceil(buffer.length / MAX_PACKET_SIZE)`. -/
def totalCountOf (buffer : List ℕ) : ℕ :=
  (buffer.length + MAX_PACKET_SIZE - 1) / MAX_PACKET_SIZE

/-- Model of `Math.min(this._parallelCount, totalCount)`. -/
def parallelCountOf (parallelCount : ℕ) (buffer : List ℕ) : ℕ :=
  min parallelCount (totalCountOf buffer)

/-- Model of `Math.min(parallelCount * this._frequency, totalCount)`. -/
def firstParallelCount (parallelCount frequency : ℕ) (buffer : List ℕ) : ℕ :=
  min (parallelCountOf parallelCount buffer * frequency) (totalCountOf buffer)

/-- The opening request set
`utils.unzipSequences([0x8000, 0x8000 | (firstParallelCount - 1)])`. -/
def initialReq (parallelCount frequency : ℕ) (buffer : List ℕ) : List ℕ :=
  unzipSequences [0x8000, 0x8000 ||| (firstParallelCount parallelCount frequency buffer - 1)]

/-- Model of the slice `buffer.slice(seq * MAX_PACKET_SIZE, min(start + MAX_PACKET_SIZE, length))`. -/
def sliceAt (buffer : List ℕ) (seq : ℕ) : List ℕ :=
  (buffer.drop (seq * MAX_PACKET_SIZE)).take MAX_PACKET_SIZE

/-- One resumption of `_generatePacketsBy`: the `req.map(seq => [seq,
this._packData(...)])` body producing the yielded `parallels` list. -/
def genYield (parallelCount : ℕ) (id : ℕ) (buffer : List ℕ) (req : List ℕ) :
    List (ℕ × PshPacket) :=
  req.map fun seq =>
    (seq, { id := id, seq := seq, parallelCount := parallelCountOf parallelCount buffer,
            totalCount := totalCountOf buffer, data := sliceAt buffer seq })

/-- Model of `_diffRequestSequences(a, b) = a.filter(seq => !b.has(seq))`. -/
def diffRequestSequences (a b : List ℕ) : List ℕ := a.filter (fun s => !b.contains s)

/-- The request set `_trySend` actually advances the generator with: the
incoming set minus `_lastRequestSequences` when the latter is non-empty
(src/index.js lines 824-835). -/
def effectiveReq (lastReq : List ℕ) (req : List ℕ) : List ℕ :=
  if lastReq.isEmpty then req else diffRequestSequences req lastReq

/-- The sequence numbers `_trySend` inserts into the session's outbound
queue: keys of the yielded packets that are not already queued
(src/index.js lines 847-851). -/
def enqueuedKeys (queue : List ℕ) (packets : List (ℕ × PshPacket)) : List ℕ :=
  (packets.map Prod.fst).filter (fun k => !queue.contains k)

/-! ## Public `send` (src/index.js lines 885-911) -/

/-- The user-supplied first argument of `send`: a buffer or anything else. -/
inductive SendArg where
  | buffer : List ℕ → SendArg
  | notBuffer : SendArg

/-- The spec's error taxonomy for `send`. -/
inductive SendErr where
  | missing : SendErr
  | state : SendErr
  | invalidArgument : SendErr
  | range : SendErr
deriving DecidableEq

/-- Observable outcome of `send`: a synchronous error, the `null` return for
empty input, or a started transfer with its allocated id.  The `Bool`
records whether a sending session was created and traffic initiated
(`_sendPshPacket` is reached only in the `started` branch of the source). -/
inductive SendResult where
  | err : SendErr → SendResult
  | nullResult : SendResult
  | started : ℕ → SendResult
deriving DecidableEq

/-- Model of `ReUDP.send` with the checks in source order: missing peer,
closed endpoint, non-buffer argument, empty buffer, oversized buffer.
`allocatedId` is the id `this._sendingSession.getIdBy(rinfo)` would return.
The second component is true exactly when a session is created and packets
are sent. -/
def send (closed : Bool) (hasDefaultPeer : Bool) (rinfoGiven : Bool)
    (arg : SendArg) (allocatedId : ℕ) : SendResult × Bool :=
  if !rinfoGiven && !hasDefaultPeer then (SendResult.err SendErr.missing, false)
  else if closed then (SendResult.err SendErr.state, false)
  else match arg with
    | SendArg.notBuffer => (SendResult.err SendErr.invalidArgument, false)
    | SendArg.buffer b =>
      if b.length = 0 then (SendResult.nullResult, false)
      else if MAX_BUFFER_SIZE < b.length then (SendResult.err SendErr.range, false)
      else (SendResult.started allocatedId, true)

/-! ## Auxiliary notions for the codec proofs

The zip scan groups a strictly ascending list into maximal runs of
consecutive integers; we make that decomposition explicit in order to relate
`zipLoop` and `unzipLoop`. -/

/-- Simple concat-map used by the codec lemmas. -/
def concatMap (f : α → List β) : List α → List β
  | [] => []
  | x :: xs => f x ++ concatMap f xs

/-- Maximal-run decomposition helper: the current run is `[s..p]` and the
remaining input is the argument list. -/
def runsAux (s p : ℕ) : List ℕ → List (ℕ × ℕ)
  | [] => [(s, p)]
  | c :: rest => if c = p + 1 then runsAux s c rest else (s, p) :: runsAux c c rest

/-- Maximal runs of consecutive integers of a list. -/
def runsOf : List ℕ → List (ℕ × ℕ)
  | [] => []
  | a :: rest => runsAux a a rest

/-- The integers a run stands for. -/
def rangeOfRun (r : ℕ × ℕ) : List ℕ := List.range' r.1 (r.2 - r.1 + 1)

/-- How `zipSequences` emits one run: singletons plainly, longer runs as the
marked pair of endpoints. -/
def encodeRun (r : ℕ × ℕ) : List ℕ :=
  if r.1 = r.2 then [r.1] else [r.1 ||| 0x8000, r.2 ||| 0x8000]

/-- Emission of a whole run list. -/
def encodeRuns (rs : List (ℕ × ℕ)) : List ℕ := concatMap encodeRun rs

/-- The singleton runs' values, in order. -/
def singlesOf : List (ℕ × ℕ) → List ℕ
  | [] => []
  | (s, e) :: rs => if s = e then s :: singlesOf rs else singlesOf rs

/-- The non-singleton runs, in order. -/
def pairsOf : List (ℕ × ℕ) → List (ℕ × ℕ)
  | [] => []
  | (s, e) :: rs => if s = e then pairsOf rs else (s, e) :: pairsOf rs

/-- The marked endpoint values of the non-singleton runs, in order. -/
def markedOf (rs : List (ℕ × ℕ)) : List ℕ :=
  concatMap (fun r => [r.1 ||| 0x8000, r.2 ||| 0x8000]) (pairsOf rs)

/-- Well-formedness of a run list with lower bound `lb`: runs are ordered,
separated by gaps of at least one missing integer, and bounded by `2^15`. -/
def RunsOK (lb : ℕ) : List (ℕ × ℕ) → Prop
  | [] => True
  | (s, e) :: rs => lb ≤ s ∧ s ≤ e ∧ e < 2 ^ 15 ∧ RunsOK (e + 2) rs

/-! # Theorems -/

/-! ## Checksum lemmas -/

theorem and_FFFF (s : ℕ) : s &&& 0xFFFF = s % 2 ^ 16 := by
  have h := Nat.and_pow_two_sub_one_eq_mod s 16
  norm_num at h ⊢
  exact h

theorem and_FF (s : ℕ) : s &&& 0xFF = s % 2 ^ 8 := by
  have h := Nat.and_pow_two_sub_one_eq_mod s 8
  norm_num at h ⊢
  exact h

theorem innerFold_eq (c s : ℕ) : innerFold c s = c + s % 2 ^ 16 := by
  rw [innerFold]
  have h : s % 2 ^ 32 / 2 ^ 16 < 2 ^ 16 :=
    Nat.div_lt_of_lt_mul (Nat.lt_of_lt_of_le (Nat.mod_lt _ (by norm_num)) (by norm_num))
  rw [if_neg (by omega)]
  rw [and_FFFF]

theorem outerFold_eq (s : ℕ) : outerFold s = if 0xFFFF < s then s % 2 ^ 16 else s := by
  rw [outerFold]
  by_cases h : 0xFFFF < s
  · rw [if_pos h, if_pos h, innerFold_eq]
    have h2 : s % 2 ^ 16 < 2 ^ 16 := Nat.mod_lt _ (by norm_num)
    rw [outerFold, if_neg (by omega)]
    omega
  · rw [if_neg h, if_neg h]

theorem sum_eq_mod (B : List ℕ) :
    sum B = ((words16 B).foldl (· + ·) 0) % 2 ^ 16 := by
  rw [sum, outerFold_eq]
  split
  · rfl
  · omega

theorem sum_le (B : List ℕ) : sum B ≤ 0xFFFF := by
  have h := sum_eq_mod B
  have : ((words16 B).foldl (· + ·) 0) % 2 ^ 16 < 2 ^ 16 := Nat.mod_lt _ (by norm_num)
  omega

theorem foldl_add_init (l : List ℕ) : ∀ a, l.foldl (· + ·) a = a + l.foldl (· + ·) 0 := by
  induction l with
  | nil => simp
  | cons x xs ih =>
    intro a
    simp only [List.foldl_cons]
    rw [ih (a + x), ih (0 + x)]
    omega

/-- Claim C4 — integrity-layer round-trip: `verify(generate(B))` is true for
every byte buffer `B`; `generate` prepends `~sum(B) & 0xFFFF` big-endian and
`verify` checks that the checksum of the whole buffer is `0xFFFF`. -/
theorem C4_integrity_roundtrip (B : List ℕ) : verify (generate B) = true := by
  have hs : sum B ≤ 0xFFFF := sum_le B
  have hW := sum_eq_mod B
  set W : ℕ := (words16 B).foldl (· + ·) 0 with hWdef
  have hc : (2 ^ 32 - 1 - sum B) &&& 0xFFFF = 0xFFFF - sum B := by
    have h := and_FFFF (2 ^ 32 - 1 - sum B)
    omega
  simp only [verify, generate, decide_eq_true_eq]
  rw [sum_eq_mod]
  simp only [words16, List.foldl_cons]
  rw [foldl_add_init, ← hWdef, hc, and_FF]
  omega

/-! ## XOR lemmas -/

theorem xor_cancel (v tb : ℕ) : (v ^^^ tb) ^^^ tb = v := by
  rw [Nat.xor_assoc, Nat.xor_self, Nat.xor_zero]

theorem word32_lt {a b c d : ℕ} (ha : a < 256) (hb : b < 256) (hc : c < 256)
    (hd : d < 256) : word32 a b c d < 2 ^ 32 := by
  unfold word32
  omega

theorem word32_bytes {x : ℕ} (hx : x < 2 ^ 32) :
    word32 (x / 2 ^ 24 % 256) (x / 2 ^ 16 % 256) (x / 2 ^ 8 % 256) (x % 256) = x := by
  unfold word32
  omega

theorem xorBody_invol (pw tb : ℕ) (hpw : pw < 2 ^ 32) :
    ∀ l : List ℕ, (∀ v ∈ l, v < 256) → xorBody pw tb (xorBody pw tb l) = l
  | a :: b :: c :: d :: rest, h => by
    have ha : a < 256 := h a (by simp)
    have hb : b < 256 := h b (by simp)
    have hc : c < 256 := h c (by simp)
    have hd : d < 256 := h d (by simp)
    have hw : word32 a b c d < 2 ^ 32 := word32_lt ha hb hc hd
    have hx : word32 a b c d ^^^ pw < 2 ^ 32 := Nat.xor_lt_two_pow hw hpw
    simp only [xorBody]
    rw [word32_bytes hx, xor_cancel]
    have hrest : xorBody pw tb (xorBody pw tb rest) = rest :=
      xorBody_invol pw tb hpw rest (fun v hv => h v (by simp [hv]))
    rw [hrest]
    have h1 : word32 a b c d / 2 ^ 24 % 256 = a := by unfold word32; omega
    have h2 : word32 a b c d / 2 ^ 16 % 256 = b := by unfold word32; omega
    have h3 : word32 a b c d / 2 ^ 8 % 256 = c := by unfold word32; omega
    have h4 : word32 a b c d % 256 = d := by unfold word32; omega
    rw [h1, h2, h3, h4]
  | [], _ => rfl
  | [a], _ => by simp [xorBody, xor_cancel]
  | [a, b], _ => by simp [xorBody, xor_cancel]
  | [a, b, c], _ => by simp [xorBody, xor_cancel]

theorem xorBody_length (pw tb : ℕ) : ∀ l : List ℕ, (xorBody pw tb l).length = l.length
  | a :: b :: c :: d :: rest => by
    simp only [xorBody, List.length_cons]
    rw [xorBody_length pw tb rest]
  | [] => rfl
  | [a] => rfl
  | [a, b] => rfl
  | [a, b, c] => rfl

/-- Claim C9 — XOR involution: for every byte buffer `B`, `xor(xor(B)) = B`,
where `xor` keys on the first big-endian 32-bit word, XORs each later
aligned word with it, and XORs trailing bytes with the key's top byte. -/
theorem C9_xor_involution (B : List ℕ) (h : ∀ v ∈ B, v < 256) :
    xor (xor B) = B := by
  match B with
  | [] => rfl
  | [a] => rfl
  | [a, b] => rfl
  | [a, b, c] => rfl
  | [a, b, c, d] => rfl
  | a :: b :: c :: d :: e :: rest =>
    have ha : a < 256 := h a (by simp)
    have hb : b < 256 := h b (by simp)
    have hc : c < 256 := h c (by simp)
    have hd : d < 256 := h d (by simp)
    have hpw : word32 a b c d < 2 ^ 32 := word32_lt ha hb hc hd
    have hxB : xor (a :: b :: c :: d :: e :: rest)
        = a :: b :: c :: d ::
            xorBody (word32 a b c d) (word32 a b c d / 2 ^ 24 &&& 0xFF) (e :: rest) := rfl
    rw [hxB]
    cases hT : xorBody (word32 a b c d) (word32 a b c d / 2 ^ 24 &&& 0xFF) (e :: rest) with
    | nil =>
      have hl := congrArg List.length hT
      rw [xorBody_length] at hl
      simp at hl
    | cons t ts =>
      have hx2 : xor (a :: b :: c :: d :: t :: ts)
          = a :: b :: c :: d ::
              xorBody (word32 a b c d) (word32 a b c d / 2 ^ 24 &&& 0xFF) (t :: ts) := rfl
      rw [hx2, ← hT,
        xorBody_invol _ _ hpw (e :: rest) (fun v hv => h v (by simp at hv ⊢; tauto))]

/-- Witness for C9 at a concrete six-byte buffer. -/
theorem C9_xor_involution_witness :
    (∀ v ∈ [1, 2, 3, 4, 5, 250], v < 256) ∧
      xor (xor [1, 2, 3, 4, 5, 250]) = [1, 2, 3, 4, 5, 250] :=
  ⟨by decide, C9_xor_involution [1, 2, 3, 4, 5, 250] (by decide)⟩

/-- Claim C10 — frame property of `utils.xor`: the function works on a fresh
copy (`Buffer.from`), so the argument buffer is unchanged and the returned
reference is distinct from the argument's. -/
theorem C10_xor_no_mutation (h : Heap) (r : ℕ) (hr : r < h.length) :
    ((xorHeap h r).1.getD r [] = h.getD r []) ∧ (xorHeap h r).2 ≠ r ∧
      (xorHeap h r).1.getD (xorHeap h r).2 [] = xor (h.getD r []) := by
  have hfresh : (h ++ [(h.getD r []).map id])[h.length]? = some ((h.getD r []).map id) :=
    List.getElem?_concat_length h _
  have hne : h.length ≠ r := by omega
  refine ⟨?_, by simpa [xorHeap] using hne, ?_⟩
  · show ((h ++ [(h.getD r []).map id]).set h.length _).getD r [] = h.getD r []
    rw [List.getD_eq_getElem?_getD, List.getElem?_set_ne hne,
      List.getElem?_append_left hr, ← List.getD_eq_getElem?_getD]
  · show ((h ++ [(h.getD r []).map id]).set h.length
        (xor ((h ++ [(h.getD r []).map id]).getD h.length []))).getD h.length [] = _
    have hlen : h.length < (h ++ [(h.getD r []).map id]).length := by
      simp
    rw [List.getD_eq_getElem?_getD, List.getElem?_set_self hlen]
    rw [List.getD_eq_getElem?_getD, hfresh]
    simp

/-- Witness for C10 on a concrete two-buffer heap. -/
theorem C10_xor_no_mutation_witness :
    (0 < [[1, 2, 3, 4, 5, 6], [9]].length) ∧
      ((xorHeap [[1, 2, 3, 4, 5, 6], [9]] 0).1.getD 0 [] = [1, 2, 3, 4, 5, 6] ∧
        (xorHeap [[1, 2, 3, 4, 5, 6], [9]] 0).2 ≠ 0) :=
  ⟨by decide,
    (C10_xor_no_mutation [[1, 2, 3, 4, 5, 6], [9]] 0 (by decide)).1,
    (C10_xor_no_mutation [[1, 2, 3, 4, 5, 6], [9]] 0 (by decide)).2.1⟩

/-! ## Transfer-id allocation -/

/-- Claim C2 — id allocation does not wrap: the `Session` constructor never
stores `options.maxCounter`, so `this._maxCounter` is `undefined`, the guard
`id >= this._maxCounter` is always false, and the allocation after id
`2^32 - 1` returns `2^32` instead of the specified `0`.  The first conjunct
shows ReUDP does pass `maxCounter = 2^32`; the second shows the constructed
session drops it; the third evaluates `getIdBy` at the failing input. -/
theorem C2_id_wrap_bug :
    reudpSendingSessionOptions.maxCounter = some MAX_COUNTER ∧
      (Session.init reudpSendingSessionOptions).maxCounterField = none ∧
      getIdBy (some (2 ^ 32 - 1)) (Session.init reudpSendingSessionOptions).maxCounterField
        = 2 ^ 32 ∧ (2 : ℕ) ^ 32 ≠ 0 := by
  refine ⟨rfl, rfl, ?_, by norm_num⟩
  show (if jsGe (2 ^ 32 - 1 + 1) none then 0 else 2 ^ 32 - 1 + 1) = 2 ^ 32
  rw [jsGe, if_neg (by simp)]
  norm_num

/-! ## Pacing-interval clamp -/

/-- Claim C5 counterexample: with the `bandWidth` option chosen so that the
computed bandwidth in bytes equals `parallelSize` (the divisor is zero), the
pacing interval is `Infinity`, not the claimed 1000 ms — `Infinity < 0` and
`isNaN(Infinity)` are both false, so the clamp does not fire. -/
theorem C5_interval_counterexample :
    reudpInterval (98992 * 8 / (1024 * 1024)) PARALLEL_COUNT = JSNum.posInf ∧
      JSNum.posInf ≠ JSNum.fin 1000 := by
  constructor
  · rw [reudpInterval, pacingInterval, rawInterval, bandWidthBytes, jsDivFin]
    norm_num [MAX_PACKET_SIZE, PARALLEL_COUNT, jsLtZero, jsIsNaN]
  · intro h
    exact JSNum.noConfusion h

/-- Claim C5 as amended — the clamp replaces the computed interval by
1000 ms exactly when it is negative (or NaN, which cannot arise here): for
positive `parallelSize`, bandwidth below `parallelSize` gives 1000 ms,
bandwidth equal to `parallelSize` gives `Infinity` (not clamped), and larger
bandwidth keeps the positive finite quotient. -/
theorem C5_interval_clamp (bw ps : ℚ) (hps : 0 < ps) :
    (bw < ps → pacingInterval bw ps = JSNum.fin 1000) ∧
      (bw = ps → pacingInterval bw ps = JSNum.posInf) ∧
      (ps < bw → pacingInterval bw ps = JSNum.fin (1000 * ps / (bw - ps))) := by
  have hnum : 0 < 1000 * ps := by linarith
  refine ⟨fun h => ?_, fun h => ?_, fun h => ?_⟩
  · have hd : bw - ps < 0 := by linarith
    have hne : ¬(bw - ps = 0) := by intro h0; linarith
    have hr : rawInterval bw ps = JSNum.fin (1000 * ps / (bw - ps)) := by
      rw [rawInterval, jsDivFin, if_neg hne]
    have hq : 1000 * ps / (bw - ps) < 0 := div_neg_of_pos_of_neg hnum hd
    simp only [pacingInterval]
    rw [hr]
    simp [jsLtZero, hq]
  · subst h
    have hr : rawInterval bw bw = JSNum.posInf := by
      rw [rawInterval, jsDivFin, if_pos (sub_self bw), if_neg (by linarith), if_pos hnum]
    simp only [pacingInterval]
    rw [hr]
    simp [jsLtZero, jsIsNaN]
  · have hd : 0 < bw - ps := by linarith
    have hne : ¬(bw - ps = 0) := by intro h0; linarith
    have hr : rawInterval bw ps = JSNum.fin (1000 * ps / (bw - ps)) := by
      rw [rawInterval, jsDivFin, if_neg hne]
    have hq : 0 ≤ 1000 * ps / (bw - ps) := le_of_lt (div_pos hnum hd)
    simp only [pacingInterval]
    rw [hr]
    simp [jsLtZero, jsIsNaN, not_lt.mpr hq]

/-- Witness for the amended C5 at concrete bandwidths. -/
theorem C5_interval_clamp_witness :
    ((0 : ℚ) < 2) ∧ pacingInterval 1 2 = JSNum.fin 1000 ∧
      pacingInterval 2 2 = JSNum.posInf :=
  ⟨by norm_num, (C5_interval_clamp 1 2 (by norm_num)).1 (by norm_num),
    (C5_interval_clamp 2 2 (by norm_num)).2.1 rfl⟩

/-! ## Public send boundaries -/

/-- Claim C6 — `send` boundary behaviour, with the source's check order:
missing peer, closed endpoint, non-buffer argument, empty buffer (`null`,
no session, no traffic), oversized buffer; and `MAX_BUFFER_SIZE =
2^15 * 1076` where 1076 is the spec's `MAX_PACKET_PAYLOAD`. -/
theorem C6_send_boundaries (closed hasDefault rinfoGiven : Bool) (b : List ℕ) (idA : ℕ) :
    (rinfoGiven = false → hasDefault = false → ∀ arg,
      send closed hasDefault rinfoGiven arg idA = (SendResult.err SendErr.missing, false)) ∧
      ((rinfoGiven || hasDefault) = true → closed = true → ∀ arg,
        send closed hasDefault rinfoGiven arg idA = (SendResult.err SendErr.state, false)) ∧
      ((rinfoGiven || hasDefault) = true → closed = false →
        send closed hasDefault rinfoGiven SendArg.notBuffer idA
          = (SendResult.err SendErr.invalidArgument, false)) ∧
      ((rinfoGiven || hasDefault) = true → closed = false → b.length = 0 →
        send closed hasDefault rinfoGiven (SendArg.buffer b) idA
          = (SendResult.nullResult, false)) ∧
      ((rinfoGiven || hasDefault) = true → closed = false → MAX_BUFFER_SIZE < b.length →
        send closed hasDefault rinfoGiven (SendArg.buffer b) idA
          = (SendResult.err SendErr.range, false)) ∧
      MAX_BUFFER_SIZE = 2 ^ 15 * 1076 := by
  refine ⟨?_, ?_, ?_, ?_, ?_, by norm_num [MAX_BUFFER_SIZE, MAX_PACKET_SIZE]⟩
  · intro h1 h2 arg
    subst h1; subst h2
    rfl
  · intro h1 h2 arg
    subst h2
    cases rinfoGiven <;> cases hasDefault <;> simp_all [send]
  · intro h1 h2
    subst h2
    cases rinfoGiven <;> cases hasDefault <;> simp_all [send]
  · intro h1 h2 h3
    subst h2
    cases rinfoGiven <;> cases hasDefault <;> simp_all [send]
  · intro h1 h2 h3
    subst h2
    have hne : b.length ≠ 0 := by
      have : 0 < MAX_BUFFER_SIZE := by norm_num [MAX_BUFFER_SIZE, MAX_PACKET_SIZE]
      omega
    cases rinfoGiven <;> cases hasDefault <;> simp_all [send]

/-- Witness for C6: each boundary at a concrete call. -/
theorem C6_send_boundaries_witness :
    send false false false SendArg.notBuffer 0 = (SendResult.err SendErr.missing, false) ∧
      send true true false (SendArg.buffer [1]) 0 = (SendResult.err SendErr.state, false) ∧
      send false true false SendArg.notBuffer 0
        = (SendResult.err SendErr.invalidArgument, false) ∧
      send false true false (SendArg.buffer []) 0 = (SendResult.nullResult, false) ∧
      send false true false (SendArg.buffer (List.replicate (MAX_BUFFER_SIZE + 1) 7)) 0
        = (SendResult.err SendErr.range, false) :=
  ⟨(C6_send_boundaries false false false [] 0).1 rfl rfl _,
    (C6_send_boundaries true true false [1] 0).2.1 rfl rfl _,
    (C6_send_boundaries false true false [] 0).2.2.1 rfl rfl,
    (C6_send_boundaries false true false [] 0).2.2.2.1 rfl rfl rfl,
    (C6_send_boundaries false true false (List.replicate (MAX_BUFFER_SIZE + 1) 7) 0).2.2.2.2.1
      rfl rfl (by rw [List.length_replicate]; omega)⟩

/-! ## Hole scan -/

theorem holesLoop_eq (frag : ℕ → Bool) (tot st : ℕ) :
    ∀ n i accLen, tot - i = n →
      holesLoop frag tot st i accLen
        = ((List.range' i (tot - i)).filter (fun j => !frag j)).take (st - accLen) := by
  intro n
  induction n with
  | zero =>
    intro i accLen h
    rw [holesLoop, if_neg (by omega), h]
    simp
  | succ n ih =>
    intro i accLen h
    rw [holesLoop]
    by_cases hacc : accLen < st
    · have hi : i < tot := by omega
      rw [if_pos ⟨hi, hacc⟩, h, List.range'_succ i n 1]
      by_cases hf : frag i
      · rw [ih (i + 1) accLen (by omega)]
        have hn : tot - (i + 1) = n := by omega
        rw [hn]
        simp [hf]
      · rw [ih (i + 1) (accLen + 1) (by omega)]
        have hn : tot - (i + 1) = n := by omega
        have hs : st - accLen = (st - (accLen + 1)) + 1 := by omega
        rw [hn, hs]
        simp [hf]
    · rw [if_neg (by omega), show st - accLen = 0 from by omega]
      simp

/-- Claim C7 — hole scan: starting at `last_scan_index` the scan walks
forward over `fragments[0..total_count)`, returns the first `single_total`
empty indices of that tail in increasing order, and the updated
`_lastIndex` is the first hole found, or `total_count` when none is. -/
theorem C7_hole_scan (frag : ℕ → Bool) (singleTotal total lastIndex : ℕ) :
    (getHolesFrom frag singleTotal total lastIndex).1
        = ((List.range' lastIndex (total - lastIndex)).filter
            (fun j => !frag j)).take singleTotal ∧
      List.Sorted (· < ·) (getHolesFrom frag singleTotal total lastIndex).1 ∧
      (getHolesFrom frag singleTotal total lastIndex).2
        = ((getHolesFrom frag singleTotal total lastIndex).1).headD total := by
  have h1 : holesLoop frag total singleTotal lastIndex 0
      = ((List.range' lastIndex (total - lastIndex)).filter
          (fun j => !frag j)).take singleTotal := by
    rw [holesLoop_eq frag total singleTotal (total - lastIndex) lastIndex 0 rfl,
      Nat.sub_zero]
  refine ⟨h1, ?_, ?_⟩
  · show List.Pairwise (· < ·) (getHolesFrom frag singleTotal total lastIndex).1
    have hsub : List.Sublist (getHolesFrom frag singleTotal total lastIndex).1
        (List.range' lastIndex (total - lastIndex)) := by
      show List.Sublist (holesLoop frag total singleTotal lastIndex 0) _
      rw [h1]
      exact List.Sublist.trans (List.take_sublist _ _) (List.filter_sublist _)
    exact (List.pairwise_lt_range' _ _).sublist hsub
  · show (getHolesFrom frag singleTotal total lastIndex).2 = _
    rcases hh : holesLoop frag total singleTotal lastIndex 0 with _ | ⟨a, l⟩ <;>
      simp [getHolesFrom, hh]

/-! ## Lone-marker decay -/

/-- Claim C8 — lone-marker decay in `unzipSequences`: a top-bit-marked value
followed by an unmarked value (or by nothing) emits its masked form and
leaves the next value for normal processing; in particular
`unzipSequences([0x8000]) = [0x00]`. -/
theorem C8_lone_marker_decay (v w : ℕ) (rest : List ℕ) (hv : 0x7FFF < v)
    (hw : w ≤ 0x7FFF) :
    unzipLoop (v :: w :: rest) = (v &&& 0x7FFF) :: unzipLoop (w :: rest) ∧
      unzipLoop [v] = [v &&& 0x7FFF] ∧ unzipSequences [0x8000] = [0] := by
  refine ⟨?_, ?_, by decide⟩
  · show (if 0x7FFF < v then
        if 0x7FFF < w then jsRangeIncl (v &&& 0x7FFF) (w &&& 0x7FFF) ++ unzipLoop rest
        else (v &&& 0x7FFF) :: unzipLoop (w :: rest)
      else v :: unzipLoop (w :: rest)) = _
    rw [if_pos hv, if_neg (by omega)]
  · show (if 0x7FFF < v then [v &&& 0x7FFF] else [v]) = _
    rw [if_pos hv]

/-- Witness for C8 at `[0x9000, 5, 7]`. -/
theorem C8_lone_marker_decay_witness :
    ((0x7FFF : ℕ) < 0x9000 ∧ (5 : ℕ) ≤ 0x7FFF) ∧
      unzipLoop [0x9000, 5, 7] = (0x9000 &&& 0x7FFF) :: unzipLoop [5, 7] :=
  ⟨by decide, (C8_lone_marker_decay 0x9000 5 [7] (by decide) (by decide)).1⟩

/-! ## Deduplication and sorting lemmas -/

theorem mem_jsUniqueAux : ∀ (l seen : List ℕ) (x : ℕ),
    x ∈ jsUniqueAux seen l ↔ x ∈ l ∧ x ∉ seen := by
  intro l
  induction l with
  | nil => simp [jsUniqueAux]
  | cons a as ih =>
    intro seen x
    rw [jsUniqueAux]
    by_cases ha : a ∈ seen
    · rw [if_pos ha, ih]
      by_cases hx : x = a
      · subst hx
        simp [ha]
      · simp [hx]
    · rw [if_neg ha]
      by_cases hx : x = a
      · subst hx
        simp [ha]
      · simp only [List.mem_cons, hx, false_or]
        rw [ih]
        simp [List.mem_cons, hx]

theorem nodup_jsUniqueAux : ∀ (l seen : List ℕ), (jsUniqueAux seen l).Nodup := by
  intro l
  induction l with
  | nil => simp [jsUniqueAux]
  | cons a as ih =>
    intro seen
    rw [jsUniqueAux]
    by_cases ha : a ∈ seen
    · rw [if_pos ha]
      exact ih seen
    · rw [if_neg ha]
      refine List.nodup_cons.mpr ⟨?_, ih (a :: seen)⟩
      rw [mem_jsUniqueAux]
      simp

theorem jsUniqueAux_eq_self : ∀ (l seen : List ℕ), l.Nodup → (∀ x ∈ l, x ∉ seen) →
    jsUniqueAux seen l = l := by
  intro l
  induction l with
  | nil => intro seen _ _; rfl
  | cons a as ih =>
    intro seen hnd hs
    rw [jsUniqueAux, if_neg (hs a (by simp))]
    congr 1
    refine ih (a :: seen) (List.nodup_cons.mp hnd).2 ?_
    intro x hx
    simp only [List.mem_cons, not_or]
    exact ⟨fun hxa => (List.nodup_cons.mp hnd).1 (hxa ▸ hx), hs x (by simp [hx])⟩

theorem jsUnique_mem (l : List ℕ) (x : ℕ) : x ∈ jsUnique l ↔ x ∈ l := by
  rw [jsUnique, mem_jsUniqueAux]
  simp

theorem jsUnique_nodup (l : List ℕ) : (jsUnique l).Nodup := nodup_jsUniqueAux l []

theorem jsUnique_eq_self {l : List ℕ} (h : l.Nodup) : jsUnique l = l :=
  jsUniqueAux_eq_self l [] h (by simp)

theorem sortedDedup_perm (l : List ℕ) : List.Perm (sortedDedup l) (jsUnique l) :=
  List.perm_insertionSort _ _

theorem sortedDedup_nodup (l : List ℕ) : (sortedDedup l).Nodup :=
  (sortedDedup_perm l).nodup_iff.mpr (jsUnique_nodup l)

theorem sortedDedup_mem (l : List ℕ) (x : ℕ) : x ∈ sortedDedup l ↔ x ∈ l := by
  rw [(sortedDedup_perm l).mem_iff, jsUnique_mem]

theorem sortedDedup_sorted_le (l : List ℕ) : (sortedDedup l).Sorted (· ≤ ·) :=
  List.sorted_insertionSort _ _

theorem sortedDedup_sorted_lt (l : List ℕ) : (sortedDedup l).Sorted (· < ·) :=
  (sortedDedup_sorted_le l).lt_of_le (sortedDedup_nodup l)

theorem sortedDedup_eq_self {l : List ℕ} (h : l.Sorted (· < ·)) : sortedDedup l = l := by
  rw [sortedDedup, jsUnique_eq_self h.nodup]
  exact List.eq_of_perm_of_sorted (List.perm_insertionSort _ l)
    (List.sorted_insertionSort _ l) (h.imp le_of_lt)

/-! ## Run decomposition lemmas -/

theorem runsAux_flatten : ∀ (R : List ℕ) (s p : ℕ), s ≤ p →
    concatMap rangeOfRun (runsAux s p R) = List.range' s (p - s + 1) ++ R := by
  intro R
  induction R with
  | nil =>
    intro s p h
    simp [runsAux, concatMap, rangeOfRun]
  | cons c rest ih =>
    intro s p h
    rw [runsAux]
    by_cases hc : c = p + 1
    · rw [if_pos hc, ih s c (by omega)]
      have h1 : c - s + 1 = (p - s + 1) + 1 := by omega
      rw [h1, List.range'_concat]
      have h2 : s + 1 * (p - s + 1) = c := by omega
      rw [h2]
      simp
    · rw [if_neg hc, concatMap, ih c c (le_refl c)]
      simp [rangeOfRun]

theorem RunsOK.mono : ∀ {rs : List (ℕ × ℕ)} {lb lb' : ℕ}, lb' ≤ lb → RunsOK lb rs →
    RunsOK lb' rs := by
  intro rs
  cases rs with
  | nil => intro lb lb' _ _; trivial
  | cons r rest =>
    obtain ⟨s, e⟩ := r
    intro lb lb' h hok
    obtain ⟨h1, h2, h3, h4⟩ := hok
    exact ⟨by omega, h2, h3, h4⟩

theorem runsAux_ok : ∀ (R : List ℕ) (s p : ℕ), s ≤ p → p < 2 ^ 15 →
    (∀ x ∈ R, x < 2 ^ 15) → List.Pairwise (· < ·) (p :: R) →
    RunsOK s (runsAux s p R) := by
  intro R
  induction R with
  | nil =>
    intro s p h1 h2 _ _
    exact ⟨le_refl s, h1, h2, trivial⟩
  | cons c rest ih =>
    intro s p h1 h2 hb hpw
    have hpc : p < c := (List.pairwise_cons.mp hpw).1 c (by simp)
    have hpw' : List.Pairwise (· < ·) (c :: rest) := (List.pairwise_cons.mp hpw).2
    rw [runsAux]
    by_cases hc : c = p + 1
    · rw [if_pos hc]
      exact ih s c (by omega) (hb c (by simp)) (fun x hx => hb x (by simp [hx])) hpw'
    · rw [if_neg hc]
      refine ⟨le_refl s, h1, h2, ?_⟩
      exact RunsOK.mono (by omega)
        (ih c c (le_refl c) (hb c (by simp)) (fun x hx => hb x (by simp [hx])) hpw')

/-! ## Relating the zip scan to the run decomposition -/

theorem zipLoop_runsAux : ∀ R : List ℕ,
    (∀ p, List.Pairwise (· < ·) (p :: R) →
      zipLoop R none (some p) = encodeRuns (runsAux p p R)) ∧
    (∀ s p, s < p → List.Pairwise (· < ·) (p :: R) →
      zipLoop R (some s) (some p) = encodeRuns (runsAux s p R)) := by
  intro R
  induction R with
  | nil =>
    constructor
    · intro p _
      simp [zipLoop, runsAux, encodeRuns, concatMap, encodeRun]
    · intro s p hsp _
      simp [zipLoop, runsAux, encodeRuns, concatMap, encodeRun, Nat.ne_of_lt hsp]
  | cons c rest ih =>
    obtain ⟨ihA, ihB⟩ := ih
    constructor
    · intro p hpw
      have hpc : p < c := (List.pairwise_cons.mp hpw).1 c (by simp)
      have hpw' : List.Pairwise (· < ·) (c :: rest) := (List.pairwise_cons.mp hpw).2
      rw [zipLoop, runsAux]
      simp only [Option.getD_none]
      rw [if_neg (Nat.ne_of_gt hpc)]
      by_cases hc : c = p + 1
      · rw [if_pos hc, if_pos hc]
        exact ihB p c hpc hpw'
      · rw [if_neg hc, if_neg hc]
        rw [encodeRuns, concatMap, encodeRun, if_pos rfl, ihA c hpw']
        rfl
    · intro s p hsp hpw
      have hpc : p < c := (List.pairwise_cons.mp hpw).1 c (by simp)
      have hpw' : List.Pairwise (· < ·) (c :: rest) := (List.pairwise_cons.mp hpw).2
      rw [zipLoop, runsAux]
      simp only [Option.getD_some]
      rw [if_neg (Nat.ne_of_gt hpc)]
      by_cases hc : c = p + 1
      · rw [if_pos hc, if_pos hc]
        exact ihB s c (by omega) hpw'
      · rw [if_neg hc, if_neg hc]
        rw [encodeRuns, concatMap, encodeRun, if_neg (Nat.ne_of_lt hsp), ihA c hpw']
        rfl

theorem zipLoop_eq_encodeRuns (D : List ℕ) (hsort : D.Sorted (· < ·)) :
    zipLoop D none none = encodeRuns (runsOf D) := by
  cases D with
  | nil => rfl
  | cons a rest =>
    show zipLoop rest none (some a) = encodeRuns (runsAux a a rest)
    exact (zipLoop_runsAux rest).1 a hsort

/-! ## Extracting singletons and pairs from the encoded runs -/

theorem encodeRuns_perm : ∀ rs : List (ℕ × ℕ),
    List.Perm (encodeRuns rs) (singlesOf rs ++ markedOf rs) := by
  intro rs
  induction rs with
  | nil => simp [encodeRuns, concatMap, singlesOf, markedOf, pairsOf]
  | cons r rest ih =>
    obtain ⟨s, e⟩ := r
    by_cases hse : s = e
    · simp only [encodeRuns, concatMap, encodeRun, if_pos hse, singlesOf, markedOf, pairsOf]
      simpa using ih.cons s
    · simp only [encodeRuns, concatMap, encodeRun, if_neg hse, singlesOf, markedOf, pairsOf]
      have hstep1 : List.Perm ((s ||| 0x8000) :: (e ||| 0x8000) :: concatMap encodeRun rest)
          ((s ||| 0x8000) :: (e ||| 0x8000) :: (singlesOf rest ++ markedOf rest)) :=
        (ih.cons _).cons _
      have hstep2 : List.Perm
          (singlesOf rest ++ (s ||| 0x8000) :: (e ||| 0x8000) :: markedOf rest)
          ((s ||| 0x8000) :: (e ||| 0x8000) :: (singlesOf rest ++ markedOf rest)) := by
        refine List.Perm.trans List.perm_middle ?_
        exact (List.perm_middle).cons _
      simpa using hstep1.trans hstep2.symm

theorem lor_marker {x : ℕ} (h : x < 2 ^ 15) : x ||| 0x8000 = x + 2 ^ 15 := by
  have h1 := Nat.mul_add_lt_is_or (b := x) (i := 15) h 1
  have h2 : 2 ^ 15 * 1 = 0x8000 := by norm_num
  rw [h2] at h1
  rw [Nat.lor_comm]
  omega

theorem and_7FFF (s : ℕ) : s &&& 0x7FFF = s % 2 ^ 15 := by
  have h := Nat.and_pow_two_sub_one_eq_mod s 15
  norm_num at h ⊢
  exact h

theorem singlesOf_props : ∀ (rs : List (ℕ × ℕ)) (lb : ℕ), RunsOK lb rs →
    List.Pairwise (· < ·) (singlesOf rs) ∧
      ∀ x ∈ singlesOf rs, lb ≤ x ∧ x < 2 ^ 15 := by
  intro rs
  induction rs with
  | nil => intro lb _; exact ⟨List.Pairwise.nil, by simp [singlesOf]⟩
  | cons r rest ih =>
    obtain ⟨s, e⟩ := r
    intro lb hok
    obtain ⟨h1, h2, h3, h4⟩ := hok
    obtain ⟨ihp, ihb⟩ := ih (e + 2) h4
    by_cases hse : s = e
    · rw [singlesOf, if_pos hse]
      refine ⟨List.pairwise_cons.mpr ⟨fun b hb => ?_, ihp⟩, fun x hx => ?_⟩
      · have := ihb b hb
        omega
      · rcases List.mem_cons.mp hx with rfl | hx'
        · omega
        · have := ihb x hx'
          omega
    · rw [singlesOf, if_neg hse]
      refine ⟨ihp, fun x hx => ?_⟩
      have := ihb x hx
      omega

theorem markedOf_props : ∀ (rs : List (ℕ × ℕ)) (lb : ℕ), RunsOK lb rs →
    List.Pairwise (· < ·) (markedOf rs) ∧
      ∀ x ∈ markedOf rs, 2 ^ 15 + lb ≤ x ∧ x < 2 ^ 16 := by
  intro rs
  induction rs with
  | nil => intro lb _; exact ⟨List.Pairwise.nil, by simp [markedOf, pairsOf, concatMap]⟩
  | cons r rest ih =>
    obtain ⟨s, e⟩ := r
    intro lb hok
    obtain ⟨h1, h2, h3, h4⟩ := hok
    obtain ⟨ihp, ihb⟩ := ih (e + 2) h4
    by_cases hse : s = e
    · rw [markedOf, pairsOf, if_pos hse]
      refine ⟨ihp, fun x hx => ?_⟩
      have := ihb x hx
      omega
    · rw [markedOf, pairsOf, if_neg hse]
      rw [concatMap]
      have hs15 : s < 2 ^ 15 := by omega
      show List.Pairwise (· < ·) ((s ||| 0x8000) :: (e ||| 0x8000) :: markedOf rest) ∧ _
      rw [lor_marker hs15, lor_marker h3]
      have hse' : s < e := by omega
      constructor
      · refine List.pairwise_cons.mpr ⟨?_, List.pairwise_cons.mpr ⟨?_, ihp⟩⟩
        · intro b hb
          rcases List.mem_cons.mp hb with rfl | hb'
          · omega
          · have := ihb b hb'
            norm_num at this ⊢
            omega
        · intro b hb
          have := ihb b hb
          norm_num at this ⊢
          omega
      · intro x hx
        rcases List.mem_cons.mp hx with rfl | hx'
        · norm_num
          omega
        · rcases List.mem_cons.mp hx' with rfl | hx''
          · norm_num
            omega
          · have := ihb x hx''
            omega

/-! ## The unzip scan on the sorted encoded list -/

theorem unzipLoop_unmarked_first : ∀ (U M : List ℕ), (∀ u ∈ U, u < 2 ^ 15) →
    unzipLoop (U ++ M) = U ++ unzipLoop M := by
  intro U
  induction U with
  | nil => intro M _; rfl
  | cons u us ih =>
    intro M hU
    have hu : ¬ (0x7FFF < u) := by
      have := hU u (by simp)
      omega
    cases hUM : us ++ M with
    | nil =>
      obtain ⟨h1, h2⟩ := List.append_eq_nil.mp hUM
      subst h1; subst h2
      show (if 0x7FFF < u then [u &&& 0x7FFF] else [u]) = [u]
      rw [if_neg hu]
    | cons y ys =>
      have hred : unzipLoop (u :: y :: ys) = u :: unzipLoop (y :: ys) := by
        simp only [unzipLoop]
        rw [if_neg hu]
      calc unzipLoop ((u :: us) ++ M) = unzipLoop (u :: y :: ys) := by
            rw [List.cons_append, hUM]
        _ = u :: unzipLoop (y :: ys) := hred
        _ = u :: unzipLoop (us ++ M) := by rw [← hUM]
        _ = (u :: us) ++ unzipLoop M := by
            rw [ih M (fun x hx => hU x (by simp [hx]))]
            rfl

theorem unzipLoop_marked : ∀ (rs : List (ℕ × ℕ)) (lb : ℕ), RunsOK lb rs →
    unzipLoop (markedOf rs) = concatMap rangeOfRun (pairsOf rs) := by
  intro rs
  induction rs with
  | nil => intro lb _; rfl
  | cons r rest ih =>
    obtain ⟨s, e⟩ := r
    intro lb hok
    obtain ⟨h1, h2, h3, h4⟩ := hok
    by_cases hse : s = e
    · simp only [markedOf, pairsOf, if_pos hse]
      exact ih (e + 2) h4
    · have hs15 : s < 2 ^ 15 := by omega
      simp only [markedOf, pairsOf, if_neg hse, concatMap, List.cons_append,
        List.nil_append]
      rw [lor_marker hs15, lor_marker h3]
      simp only [unzipLoop]
      rw [if_pos (show 0x7FFF < s + 2 ^ 15 by omega),
        if_pos (show 0x7FFF < e + 2 ^ 15 by omega)]
      rw [and_7FFF, and_7FFF,
        show (s + 2 ^ 15) % 2 ^ 15 = s from by omega,
        show (e + 2 ^ 15) % 2 ^ 15 = e from by omega]
      rw [jsRangeIncl, if_pos h2]
      have htail : unzipLoop (concatMap (fun r => [r.1 ||| 0x8000, r.2 ||| 0x8000])
          (pairsOf rest)) = concatMap rangeOfRun (pairsOf rest) := ih (e + 2) h4
      rw [htail]
      rfl

theorem rangeRuns_perm : ∀ rs : List (ℕ × ℕ),
    List.Perm (concatMap rangeOfRun rs)
      (singlesOf rs ++ concatMap rangeOfRun (pairsOf rs)) := by
  intro rs
  induction rs with
  | nil => exact List.Perm.refl _
  | cons r rest ih =>
    obtain ⟨s, e⟩ := r
    by_cases hse : s = e
    · subst hse
      have hr : rangeOfRun (s, s) = [s] := by
        simp [rangeOfRun]
      simp only [concatMap, singlesOf, pairsOf, if_pos rfl, hr, List.cons_append,
        List.nil_append]
      exact ih.cons s
    · simp only [concatMap, singlesOf, pairsOf, if_neg hse]
      have step1 : List.Perm (rangeOfRun (s, e) ++ concatMap rangeOfRun rest)
          (rangeOfRun (s, e) ++ (singlesOf rest ++ concatMap rangeOfRun (pairsOf rest))) :=
        ih.append_left _
      refine step1.trans ?_
      rw [← List.append_assoc, ← List.append_assoc]
      exact (List.perm_append_comm).append_right _

/-! ## The codec round trip up to permutation -/

theorem unzip_zip_of_sorted (D : List ℕ) (hsort : D.Sorted (· < ·))
    (hb : ∀ x ∈ D, x < 2 ^ 15) :
    List.Perm (unzipSequences (zipLoop D none none)) D ∧
      (unzipSequences (zipLoop D none none)).Nodup := by
  cases D with
  | nil => exact ⟨by decide, by decide⟩
  | cons a rest =>
    have hok : RunsOK a (runsAux a a rest) :=
      runsAux_ok rest a a (le_refl a) (hb a (by simp))
        (fun x hx => hb x (by simp [hx])) hsort
    have hZ : zipLoop (a :: rest) none none = encodeRuns (runsAux a a rest) :=
      zipLoop_eq_encodeRuns _ hsort
    obtain ⟨hUp, hUb⟩ := singlesOf_props (runsAux a a rest) a hok
    obtain ⟨hMp, hMb⟩ := markedOf_props (runsAux a a rest) a hok
    have hUM : List.Pairwise (· < ·)
        (singlesOf (runsAux a a rest) ++ markedOf (runsAux a a rest)) := by
      refine List.pairwise_append.mpr ⟨hUp, hMp, ?_⟩
      intro u hu m hm
      have h1 := hUb u hu
      have h2 := hMb m hm
      omega
    have hperm1 : List.Perm (encodeRuns (runsAux a a rest))
        (singlesOf (runsAux a a rest) ++ markedOf (runsAux a a rest)) :=
      encodeRuns_perm _
    have hZnodup : (encodeRuns (runsAux a a rest)).Nodup :=
      hperm1.nodup_iff.mpr hUM.nodup
    have hsd : sortedDedup (encodeRuns (runsAux a a rest))
        = singlesOf (runsAux a a rest) ++ markedOf (runsAux a a rest) := by
      rw [sortedDedup, jsUnique_eq_self hZnodup]
      exact List.eq_of_perm_of_sorted ((List.perm_insertionSort _ _).trans hperm1)
        (List.sorted_insertionSort _ _) (hUM.imp le_of_lt)
    have hflat : concatMap rangeOfRun (runsAux a a rest) = a :: rest := by
      have h := runsAux_flatten rest a a (le_refl a)
      simpa using h
    have hperm2 : List.Perm
        (singlesOf (runsAux a a rest) ++ concatMap rangeOfRun (pairsOf (runsAux a a rest)))
        (a :: rest) := by
      have := (rangeRuns_perm (runsAux a a rest)).symm
      rw [hflat] at this
      exact this
    have hfinal : unzipSequences (zipLoop (a :: rest) none none)
        = singlesOf (runsAux a a rest) ++ concatMap rangeOfRun (pairsOf (runsAux a a rest)) := by
      rw [hZ, unzipSequences, hsd,
        unzipLoop_unmarked_first _ _ (fun u hu => (hUb u hu).2),
        unzipLoop_marked _ a hok]
      refine jsUnique_eq_self ?_
      exact hperm2.nodup_iff.mpr hsort.nodup
    rw [hfinal]
    exact ⟨hperm2, hperm2.nodup_iff.mpr hsort.nodup⟩

/-- Claim C1 counterexample: for `L = [0, 1, 5]` the round trip returns
`[5, 0, 1]` — the elements of `dedupe_sort(L)` but not in ascending order,
so `unzip(zip(L))` does not equal `dedupe_sort(L) = [0, 1, 5]`. -/
theorem C1_roundtrip_counterexample :
    zipSequences [0, 1, 5] = some [0x8000, 0x8001, 5] ∧
      unzipSequences [0x8000, 0x8001, 5] = [5, 0, 1] ∧
      sortedDedup [0, 1, 5] = [0, 1, 5] ∧
      ([5, 0, 1] : List ℕ) ≠ [0, 1, 5] := by
  refine ⟨by decide, by decide, by decide, by decide⟩

/-- Claim C1 as amended — sequence-codec round trip up to order: for every
list `L` with elements in `[0, 0x8000)`, `unzip(zip(L))` is a permutation of
the sorted deduplicated form of `L` (so it is deduplicated and sorting it
recovers `dedupe_sort(L)`), but the singletons are emitted before the
decompressed runs, so the output itself need not be ascending. -/
theorem C1_roundtrip_perm (L : List ℕ) (hL : ∀ x ∈ L, x < 0x8000) :
    ∃ Z, zipSequences L = some Z ∧
      List.Perm (unzipSequences Z) (sortedDedup L) ∧
      (unzipSequences Z).Nodup ∧
      List.insertionSort (· ≤ ·) (unzipSequences Z) = sortedDedup L := by
  have hbound : ∀ x ∈ sortedDedup L, x < 0x8000 :=
    fun x hx => hL x ((sortedDedup_mem L x).mp hx)
  obtain ⟨hperm, hnodup⟩ :=
    unzip_zip_of_sorted (sortedDedup L) (sortedDedup_sorted_lt L) hbound
  refine ⟨zipLoop (sortedDedup L) none none, by rw [zipSequences, if_pos hbound], hperm,
    hnodup, ?_⟩
  exact List.eq_of_perm_of_sorted ((List.perm_insertionSort _ _).trans hperm)
    (List.sorted_insertionSort _ _) (sortedDedup_sorted_le L)

/-- Witness for the amended C1 at `L = [3, 4, 9]`. -/
theorem C1_roundtrip_perm_witness :
    (∀ x ∈ [3, 4, 9], x < 0x8000) ∧
      ∃ Z, zipSequences [3, 4, 9] = some Z ∧
        List.Perm (unzipSequences Z) (sortedDedup [3, 4, 9]) ∧
        (unzipSequences Z).Nodup ∧
        List.insertionSort (· ≤ ·) (unzipSequences Z) = sortedDedup [3, 4, 9] :=
  ⟨by decide, C1_roundtrip_perm [3, 4, 9] (by decide)⟩

/-! ## Sender enqueue path -/

theorem unzip_marker_pair (k : ℕ) (hk : k ≤ 0x7FFF) :
    unzipSequences [0x8000, 0x8000 ||| k] = List.range (k + 1) := by
  rcases Nat.eq_zero_or_pos k with rfl | hk1
  · decide
  · have hor : 0x8000 ||| k = k + 2 ^ 15 := by
      rw [Nat.lor_comm]
      exact lor_marker (by omega)
    rw [hor]
    have hsd : sortedDedup [0x8000, k + 2 ^ 15] = [0x8000, k + 2 ^ 15] := by
      refine sortedDedup_eq_self ?_
      simp [List.sorted_cons]
      omega
    rw [unzipSequences, hsd]
    simp only [unzipLoop]
    rw [if_pos (show (0x7FFF : ℕ) < 0x8000 by norm_num),
      if_pos (show 0x7FFF < k + 2 ^ 15 by omega)]
    rw [and_7FFF, and_7FFF,
      show (0x8000 : ℕ) % 2 ^ 15 = 0 from by norm_num,
      show (k + 2 ^ 15) % 2 ^ 15 = k from by omega]
    rw [jsRangeIncl, if_pos (Nat.zero_le k), Nat.sub_zero, List.append_nil]
    rw [jsUnique_eq_self (List.pairwise_lt_range' 0 (k + 1)).nodup]
    rw [List.range_eq_range']

theorem genYield_keys (pc id : ℕ) (buffer req : List ℕ) :
    (genYield pc id buffer req).map Prod.fst = req := by
  simp [genYield, List.map_map]
  exact List.map_id req

theorem enqueuedKeys_mem {queue : List ℕ} {packets : List (ℕ × PshPacket)} {k : ℕ}
    (h : k ∈ enqueuedKeys queue packets) : k ∈ packets.map Prod.fst :=
  List.mem_of_mem_filter h

theorem effectiveReq_subset {lastReq req : List ℕ} {k : ℕ}
    (h : k ∈ effectiveReq lastReq req) : k ∈ req := by
  rw [effectiveReq] at h
  split at h
  · exact h
  · exact List.mem_of_mem_filter h

/-- Claim C3 counterexample: for a one-byte transfer (`total_count = 1`), a
received REQ whose payload decodes to `[1]` makes `_trySend` advance the
generator with `[1]`, and the generator maps over that set with no bound
check, so a PSH with sequence 1 ≥ `total_count` is enqueued. -/
theorem C3_enqueue_counterexample :
    unzipSequences [1] = [1] ∧
      totalCountOf [0x37] = 1 ∧
      enqueuedKeys [] (genYield 92 0 [0x37] (effectiveReq [] [1])) = [1] ∧
      ¬ (1 < totalCountOf [0x37]) := by
  refine ⟨by decide, by decide, by decide, by decide⟩

/-- Claim C3 as amended — the initial burst only enqueues sequences below
`total_count`, and advancing the generator enqueues exactly (a subset of)
the REQ-carried set; hence no PSH with sequence ≥ `total_count` is enqueued
provided every REQ-carried sequence is < `total_count` — an arbitrary
REQ-carried set is not filtered and can violate the bound. -/
theorem C3_enqueue_bound (pc freq id : ℕ) (buffer queue lastReq req : List ℕ)
    (hpc : 1 ≤ pc) (hfreq : 1 ≤ freq) (hlen : 1 ≤ buffer.length)
    (hmax : buffer.length ≤ MAX_BUFFER_SIZE)
    (hreq : ∀ s ∈ req, s < totalCountOf buffer) :
    (∀ k ∈ enqueuedKeys queue (genYield pc id buffer (initialReq pc freq buffer)),
        k < totalCountOf buffer) ∧
      ∀ k ∈ enqueuedKeys queue (genYield pc id buffer (effectiveReq lastReq req)),
        k < totalCountOf buffer := by
  have hMPS : MAX_PACKET_SIZE = 1076 := by norm_num [MAX_PACKET_SIZE]
  have hMBS : MAX_BUFFER_SIZE = 2 ^ 15 * 1076 := by
    norm_num [MAX_BUFFER_SIZE, MAX_PACKET_SIZE]
  have htc1 : 1 ≤ totalCountOf buffer := by
    rw [totalCountOf, hMPS]
    omega
  have htc2 : totalCountOf buffer ≤ 2 ^ 15 := by
    rw [totalCountOf, hMPS]
    rw [hMBS] at hmax
    omega
  constructor
  · intro k hk
    have h1 : k ∈ initialReq pc freq buffer := by
      have h := enqueuedKeys_mem hk
      rwa [genYield_keys] at h
    have hfpc1 : 1 ≤ firstParallelCount pc freq buffer := by
      rw [firstParallelCount, parallelCountOf]
      have h1 : 1 ≤ min pc (totalCountOf buffer) := by omega
      have h2 : min pc (totalCountOf buffer) ≤ min pc (totalCountOf buffer) * freq :=
        Nat.le_mul_of_pos_right _ (by omega)
      omega
    have hfpcle : firstParallelCount pc freq buffer ≤ totalCountOf buffer := by
      rw [firstParallelCount]
      omega
    have hrange : initialReq pc freq buffer
        = List.range (firstParallelCount pc freq buffer) := by
      rw [initialReq, unzip_marker_pair (firstParallelCount pc freq buffer - 1) (by omega)]
      congr 1
      omega
    rw [hrange] at h1
    have := List.mem_range.mp h1
    omega
  · intro k hk
    have h1 : k ∈ effectiveReq lastReq req := by
      have h := enqueuedKeys_mem hk
      rwa [genYield_keys] at h
    exact hreq k (effectiveReq_subset h1)

/-- Witness for the amended C3 at a concrete two-byte transfer. -/
theorem C3_enqueue_bound_witness :
    ((1 : ℕ) ≤ 92 ∧ (1 : ℕ) ≤ 1 ∧ 1 ≤ ([7, 8] : List ℕ).length ∧
        ([7, 8] : List ℕ).length ≤ MAX_BUFFER_SIZE ∧
        ∀ s ∈ ([0] : List ℕ), s < totalCountOf [7, 8]) ∧
      ((∀ k ∈ enqueuedKeys [] (genYield 92 0 [7, 8] (initialReq 92 1 [7, 8])),
          k < totalCountOf [7, 8]) ∧
        ∀ k ∈ enqueuedKeys [] (genYield 92 0 [7, 8] (effectiveReq [] [0])),
          k < totalCountOf [7, 8]) :=
  ⟨⟨by norm_num, by norm_num, by norm_num,
      by norm_num [MAX_BUFFER_SIZE, MAX_PACKET_SIZE], by decide⟩,
    C3_enqueue_bound 92 1 0 [7, 8] [] [] [0] (by norm_num) (by norm_num) (by norm_num)
      (by norm_num [MAX_BUFFER_SIZE, MAX_PACKET_SIZE]) (by decide)⟩

end ReUDP
